import Mathlib

/-
  Verification of the demand-miner core against its natural-language
  specification.  The Python modules under src/core are shallowly embedded:
  pure functions become Lean functions, the HTTP provider layer is abstracted
  as explicit data arguments (a failed provider call is `none`, mirroring the
  empty dict returned by `_search` on any request exception), and Python dicts
  become ordered association lists with Python's update semantics (replacing
  the value of an existing key keeps its position, a new key is appended).
-/

namespace DemandMiner

/-- Python substring membership on character lists: true when the first list
occurs contiguously inside the second (the empty list occurs everywhere). -/
def isPre : List Char → List Char → Bool
  | [], _ => true
  | _ :: _, [] => false
  | a :: as, b :: bs => a == b && isPre as bs

/-- Helper for substring search: scan every suffix of the haystack. -/
def subList : List Char → List Char → Bool
  | needle, [] => needle.isEmpty
  | needle, c :: rest => isPre needle (c :: rest) || subList needle rest

/-- Embedding of the Python expression needle in haystack on strings. -/
def containsSub (needle hay : String) : Bool :=
  subList needle.data hay.data

/-- Embedding of the Python str.upper() method as a character-wise map. -/
def strUpper (s : String) : String :=
  String.mk (s.data.map Char.toUpper)

/-- One entry of a windowed search result, as built by get_recent_results
from the provider item payload (title, link, displayLink). -/
structure SearchItem where
  title : String
  link : String
  domain : String
  deriving Repr, DecidableEq

/-- Result of a windowed query: the totalResults count plus the item list. -/
structure WindowedResult where
  count : Int
  items : List SearchItem
  deriving Repr, DecidableEq

/-- One raw item of a successful Custom Search response. -/
structure RawItem where
  title : String
  link : String
  displayLink : String
  deriving Repr, DecidableEq

/-- A successful Custom Search API response, reduced to the fields the core
reads: searchInformation.totalResults and the items array.  A provider
failure is modelled as the absence of this value (`_search` returns the empty
dict on every error path). -/
structure SearchData where
  totalResults : Int
  items : List RawItem
  deriving Repr, DecidableEq

/-- Embedding of get_allintitle_count (src/core/search_analyzer.py, lines
82-106) over the abstracted provider response: the error sentinel -1 when the
request failed, otherwise the reported total. -/
def get_allintitle_count : Option SearchData → Int
  | none => -1
  | some d => d.totalResults

/-- Embedding of get_recent_results (src/core/search_analyzer.py, lines
109-146): on failure the function returns the dict with count 0 and an empty
item list; on success it copies the total and re-labels each item's
displayLink as domain. -/
def get_recent_results : Option SearchData → WindowedResult
  | none => { count := 0, items := [] }
  | some d =>
      { count := d.totalResults
        items := d.items.map (fun it =>
          { title := it.title, link := it.link, domain := it.displayLink }) }

/-- Python dicts and their update/lookup semantics, as ordered association
lists.  `dset` replaces the value of an existing key in place and appends a
missing key at the end, exactly like a Python dict assignment. -/
def dset {α : Type} : List (String × α) → String → α → List (String × α)
  | [], k, v => [(k, v)]
  | (k0, v0) :: rest, k, v =>
    if k0 = k then (k0, v) :: rest else (k0, v0) :: dset rest k v

/-- Python dict lookup: the value of the first (unique) matching key. -/
def dget {α : Type} : List (String × α) → String → Option α
  | [], _ => none
  | (k0, v0) :: rest, k => if k0 = k then some v0 else dget rest k

/-- The recent_results mapping window-label (such as the string 7d) to the
windowed result stored under it. -/
abbrev RecentMap := List (String × WindowedResult)

/-- Embedding of the Python expression d.get(count, 0) where d is either a
full windowed-result dict or the empty-dict default of a missing key. -/
def optCount : Option WindowedResult → Int
  | none => 0
  | some w => w.count

/-- Embedding of d.get(items, []) under the same convention. -/
def optItems : Option WindowedResult → List SearchItem
  | none => []
  | some w => w.items

/-- Embedding of check_domain_match (src/core/search_analyzer.py, lines
149-170): false on an empty item list, otherwise true when every item's
domain contains at least one target domain as a substring. -/
def check_domain_match (results : Option WindowedResult)
    (target_domains : List String) : Bool :=
  let items := optItems results
  if items.isEmpty then false
  else items.all (fun it => target_domains.any (fun td => containsSub td it.domain))

/-- The day-count label used as recent_results key, Python f-string ndays d. -/
def toLabel (n : Nat) : String :=
  toString n ++ "d"

/-- Python double-default lookup recent_results.get(k, recent_results.get(fb, {})). -/
def dgetFallback (m : RecentMap) (k fb : String) : Option WindowedResult :=
  match dget m k with
  | some w => some w
  | none => dget m fb

/-- The ranking thresholds read from the profile (defaults 90 / 30 / 7). -/
structure RankingConfig where
  rank_s_days : Nat := 90
  rank_a_days : Nat := 30
  rank_b_days : Nat := 7
  deriving Repr, DecidableEq

/-- The sniper-mode settings read from the profile. -/
structure SniperConfig where
  enabled : Bool := false
  max_competitors : Int := 5
  deriving Repr, DecidableEq

/-- Window consulted by the S-rank test, with the literal 90d fallback key. -/
def sWindow (m : RecentMap) (rc : RankingConfig) : Option WindowedResult :=
  dgetFallback m (toLabel rc.rank_s_days) (toLabel 90)

/-- Window consulted by the A-rank test, with the literal 30d fallback key. -/
def aWindow (m : RecentMap) (rc : RankingConfig) : Option WindowedResult :=
  dgetFallback m (toLabel rc.rank_a_days) (toLabel 30)

/-- Window consulted by the B-rank test, with the literal 7d fallback key. -/
def bWindow (m : RecentMap) (rc : RankingConfig) : Option WindowedResult :=
  dgetFallback m (toLabel rc.rank_b_days) (toLabel 7)

/-- The nested sniper-mode guard of determine_rank (src/core/ranker.py,
lines 57-65): sniper enabled, allintitle between 1 and max_competitors, the
1-day window nonempty, and the domain check passing. -/
def sniperHit (allintitle_count : Int) (recent_results : RecentMap)
    (target_domains : List String) (sc : SniperConfig) : Bool :=
  if sc.enabled then
    if 1 ≤ allintitle_count ∧ allintitle_count ≤ sc.max_competitors then
      if 0 < optCount (dget recent_results (toLabel 1)) then
        check_domain_match (dget recent_results (toLabel 1)) target_domains
      else false
    else false
  else false

/-- Embedding of determine_rank (src/core/ranker.py, lines 14-91).  The
nested sniper conditions of the source are the sniperHit guard; the
remaining cascade mirrors the source if-chain literally. -/
def determine_rank (_keyword : String) (allintitle_count : Int)
    (recent_results : RecentMap) (target_domains : List String)
    (rc : RankingConfig) (sc : SniperConfig) : String :=
  if sniperHit allintitle_count recent_results target_domains sc then "SS"
  else if allintitle_count = 0 then "S"
  else if optCount (sWindow recent_results rc) = 0 then "S"
  else if optCount (aWindow recent_results rc) = 0 then "A"
  else if optCount (bWindow recent_results rc) = 0 then "B"
  else "C"

/-- The record returned by analyze_keyword. -/
structure AnalyzeResult where
  keyword : String
  allintitle_count : Int
  rank : String
  recent_results : RecentMap
  deriving Repr, DecidableEq

/-- Embedding of analyze_keyword (src/core/ranker.py, lines 94-186).  The
provider is abstracted as the allintitle response plus a map from
dateRestrict day-counts to windowed responses; alongside the result the
function returns, as instrumentation, the list of day-counts actually passed
to get_recent_results, in call order. -/
def analyze_keyword (keyword : String)
    (allintitleData : Option SearchData)
    (windowData : Nat → Option SearchData)
    (target_domains : List String)
    (rc : RankingConfig) (sc : SniperConfig)
    (max_allintitle : Int) : AnalyzeResult × List Nat :=
  let allintitle := get_allintitle_count allintitleData
  if 0 < max_allintitle ∧ max_allintitle < allintitle then
    ({ keyword := keyword, allintitle_count := allintitle
       rank := "C", recent_results := [] }, [])
  else
    let sd := rc.rank_s_days
    let ad := rc.rank_a_days
    let bd := rc.rank_b_days
    let start : RecentMap × List Nat :=
      if sc.enabled then
        (dset [] (toLabel 1) (get_recent_results (windowData 1)), [1])
      else ([], [])
    let r7 := get_recent_results (windowData bd)
    let m1 := dset start.1 (toLabel bd) r7
    let q1 := start.2 ++ [bd]
    let fin : RecentMap × List Nat :=
      if r7.count = 0 then
        (dset (dset m1 (toLabel ad) { count := 0, items := [] })
          (toLabel sd) { count := 0, items := [] }, q1)
      else
        let r30 := get_recent_results (windowData ad)
        let m2 := dset m1 (toLabel ad) r30
        let q2 := q1 ++ [ad]
        if r30.count = 0 then
          (dset m2 (toLabel sd) { count := 0, items := [] }, q2)
        else
          (dset m2 (toLabel sd) (get_recent_results (windowData sd)), q2 ++ [sd])
    let rank := determine_rank keyword allintitle fin.1 target_domains rc sc
    ({ keyword := keyword, allintitle_count := allintitle
       rank := rank, recent_results := fin.1 }, fin.2)

/-- Does the suggestion contain some filter keyword as a substring?  This is
the membership test of the filter loop in filter_by_keywords. -/
def matchesAnyFilter (filter_keywords : List String) (s : String) : Bool :=
  filter_keywords.any (fun fk => containsSub fk s)

/-- Embedding of filter_by_keywords (src/core/suggest_fetcher.py, lines
65-84): keeps, in order, the suggestions containing at least one filter
keyword (the source's inner loop with break is exactly this filter). -/
def filter_by_keywords (suggestions : List String)
    (filter_keywords : List String) : List String :=
  suggestions.filter (matchesAnyFilter filter_keywords)

/-- State produced by one depth level of smart_recursive_search: the result
accumulations of the root loop, the next frontier, the seen set after the
loop and the list of keywords actually fetched, in fetch order. -/
structure LevelOut where
  results : List String
  nexts : List String
  seen : List String
  trace : List String
  deriving Repr, DecidableEq

/-- Embedding of the root loop of smart_recursive_search
(src/core/suggest_fetcher.py, lines 122-153).  The Python set _seen is
modelled as a list used only through membership; a root already seen is
skipped, otherwise it is claimed into the seen set before its fetch.  At
depth 0 only the filter matches (not already seen) are accumulated; at deeper
levels every unseen suggestion is accumulated first and the unseen filter
matches are accumulated again, exactly as the two source loops do.  The
filter matches that are not yet seen also form the next frontier. -/
def processRoots (suggest : String → List String) (fk : List String)
    (isDepth0 : Bool) : List String → List String → LevelOut
  | [], seen => { results := [], nexts := [], seen := seen, trace := [] }
  | root :: rest, seen =>
    if root ∈ seen then processRoots suggest fk isDepth0 rest seen
    else
      let seen1 := root :: seen
      let suggestions := suggest root
      let matched := filter_by_keywords suggestions fk
      let matchedF := matched.filter (fun m => decide (m ∉ seen1))
      let here :=
        (if isDepth0 then []
         else suggestions.filter (fun s => decide (s ∉ seen1))) ++ matchedF
      let restOut := processRoots suggest fk isDepth0 rest seen1
      { results := here ++ restOut.results
        nexts := matchedF ++ restOut.nexts
        seen := restOut.seen
        trace := root :: restOut.trace }

/-- Order-preserving first-occurrence deduplication, as the final loop of
smart_recursive_search performs with its seen_results set. -/
def dedupFirstAux (acc : List String) : List String → List String
  | [] => []
  | x :: xs =>
    if x ∈ acc then dedupFirstAux acc xs
    else x :: dedupFirstAux (x :: acc) xs

/-- First-occurrence deduplication starting from an empty seen set. -/
def dedupFirst (l : List String) : List String :=
  dedupFirstAux [] l

/-- Return value of smart_recursive_search: the deduplicated result list,
the seen set after the call, and the fetch trace (instrumentation recording
every keyword passed to fetch_suggestions, in call order). -/
structure SearchOut where
  results : List String
  seen : List String
  trace : List String
  deriving Repr, DecidableEq

/-- Fuel-indexed core of smart_recursive_search
(src/core/suggest_fetcher.py, lines 87-179).  The wrapper below instantiates
the fuel with max_depth - current_depth, so fuel 0 holds exactly when
current_depth is at least max_depth, which is the source's early return of
the empty list; each recursive call increments current_depth and decrements
the fuel accordingly.  When the frontier produced by the level loop is empty
the source skips the recursive call. -/
def smartGo (suggest : String → List String) (fk : List String) :
    Nat → List String → Nat → Nat → List String → SearchOut
  | 0, _, _, _, seen => { results := [], seen := seen, trace := [] }
  | fuel + 1, roots, current_depth, max_depth, seen =>
    let p := processRoots suggest fk (current_depth == 0) roots seen
    let deeper : SearchOut :=
      if p.nexts.isEmpty then { results := [], seen := p.seen, trace := [] }
      else smartGo suggest fk fuel p.nexts (current_depth + 1) max_depth p.seen
    { results := dedupFirst (p.results ++ deeper.results)
      seen := deeper.seen
      trace := p.trace ++ deeper.trace }

/-- Embedding of smart_recursive_search: the recursion on
current_depth bounded by max_depth is realised through the fuel
max_depth - current_depth. -/
def smart_recursive_search (suggest : String → List String)
    (fk : List String) (root_keywords : List String)
    (current_depth max_depth : Nat) (seen : List String) : SearchOut :=
  smartGo suggest fk (max_depth - current_depth) root_keywords
    current_depth max_depth seen

/-- The raw discovery stream of smart_recursive_search: the per-level result
accumulations concatenated across depths, without any deduplication.  Used to
state that the returned list is the first-occurrence deduplication of the
discovery order. -/
def smartRaw (suggest : String → List String) (fk : List String) :
    Nat → List String → Nat → List String → List String
  | 0, _, _, _ => []
  | fuel + 1, roots, current_depth, seen =>
    let p := processRoots suggest fk (current_depth == 0) roots seen
    p.results ++
      (if p.nexts.isEmpty then []
       else smartRaw suggest fk fuel p.nexts (current_depth + 1) p.seen)

/-- Over-approximation of the frontier reachable at each level: level 0 is
the root list, and each next level consists of all filter-matching
suggestions of the previous level.  Every keyword actually fetched at level j
lies in the j-th potential frontier. -/
def potentialFrontier (suggest : String → List String) (fk : List String)
    (roots : List String) : Nat → List String
  | 0 => roots
  | j + 1 =>
    filter_by_keywords ((potentialFrontier suggest fk roots j).flatMap suggest) fk

/- ---------------------------------------------------------------- -/
/- Cache manager (src/core/cache_manager.py)                         -/
/- ---------------------------------------------------------------- -/

/-- A persisted cache entry as read by is_cache_valid.  The timestamp field
is none when the key is missing, the string is empty, or
datetime.fromisoformat raises; otherwise it is the parsed instant, measured
in seconds.  The rank field is none when the key is missing. -/
structure CacheEntry where
  timestamp : Option Int
  rank : Option String
  deriving Repr, DecidableEq

/-- The smart_ttl section of the cache configuration; each per-rank hour
value is none when the key is absent from the dict. -/
structure SmartTtlConfig where
  enabled : Bool
  rank_ss_ttl_hours : Option Int := none
  rank_s_ttl_hours : Option Int := none
  rank_a_ttl_hours : Option Int := none
  rank_b_ttl_hours : Option Int := none
  rank_c_ttl_hours : Option Int := none
  deriving Repr, DecidableEq

/-- The cache section of the global configuration. -/
structure CacheConfig where
  enabled : Bool := true
  ttl_hours : Option Int := none
  smart_ttl : Option SmartTtlConfig := none
  deriving Repr, DecidableEq

/-- Embedding of the effective-TTL selection block of is_cache_valid
(src/core/cache_manager.py, lines 95-107): with smart TTL enabled the
effective TTL comes from the per-rank table when the upper-cased stored rank
is one of its five keys, otherwise the base ttl_hours is kept.  Time
instants elsewhere are integers in seconds, so a TTL of h hours spans
h * 3600. -/
def rank_effective_ttl (cache_entry : CacheEntry) (ttl_hours : Int)
    (smart_ttl_config : Option SmartTtlConfig) : Int :=
  match smart_ttl_config with
  | some cfg =>
    if cfg.enabled then
      let rank := strUpper (cache_entry.rank.getD (α := String) "")
      if rank = "SS" then cfg.rank_ss_ttl_hours.getD 0
      else if rank = "S" then cfg.rank_s_ttl_hours.getD 0
      else if rank = "A" then cfg.rank_a_ttl_hours.getD 24
      else if rank = "B" then cfg.rank_b_ttl_hours.getD 48
      else if rank = "C" then cfg.rank_c_ttl_hours.getD 168
      else ttl_hours
    else ttl_hours
  | none => ttl_hours

/-- Embedding of the staleness decision of is_cache_valid proper: timestamp
present and parseable, effective TTL nonzero, and now before the expiry. -/
def is_cache_valid (cache_entry : CacheEntry) (ttl_hours : Int)
    (smart_ttl_config : Option SmartTtlConfig) (now : Int) : Bool :=
  match cache_entry.timestamp with
  | none => false
  | some cached_time =>
    let effective_ttl : Int :=
      rank_effective_ttl cache_entry ttl_hours smart_ttl_config
    if effective_ttl = 0 then false
    else decide (now < cached_time + effective_ttl * 3600)

/-- Embedding of get_cached_result (src/core/cache_manager.py, lines
117-144): none when the keyword is absent, when caching is disabled, or when
is_cache_valid rejects the entry; the ttl_hours default of 24 applies when
the config key is missing. -/
def get_cached_result (keyword : String)
    (cache_data : List (String × CacheEntry)) (config : CacheConfig)
    (now : Int) : Option CacheEntry :=
  match dget cache_data keyword with
  | none => none
  | some entry =>
    if !config.enabled then none
    else if is_cache_valid entry (config.ttl_hours.getD 24) config.smart_ttl now
    then some entry
    else none

/-- A heap of Python dict objects, indexed by object identity (an address),
used to express the in-place mutation and aliasing performed by
update_cache.  The value type of the result dicts is abstract. -/
structure Heap (α : Type) where
  store : Nat → List (String × α)

/-- Embedding of update_cache (src/core/cache_manager.py, lines 147-157).
result_data is passed by reference (its address); the function sets the
timestamp key of that very object in the heap and binds the keyword, in the
cache dict, to the same address — no copy is made.  Returns the updated
cache dict together with the updated heap. -/
def update_cache {α : Type} (keyword : String) (result_ref : Nat)
    (cache_data : List (String × Nat)) (heap : Heap α) (nowTimestamp : α) :
    List (String × Nat) × Heap α :=
  let rd := heap.store result_ref
  let rdNew := dset rd ("timestamp") nowTimestamp
  let heapNew : Heap α :=
    { store := fun a => if a = result_ref then rdNew else heap.store a }
  (dset cache_data keyword result_ref, heapNew)

/- ---------------------------------------------------------------- -/
/- Spec-side definitions: the claims' wording, rendered separately   -/
/- from the source embedding so the two can be compared.             -/
/- ---------------------------------------------------------------- -/

/-- Claim C1's SS condition: sniper enabled, allintitle count between 1 and
max_competitors inclusive, the 1-day window's count positive, and every item
of that window's nonempty item list carrying a domain that contains some
target domain as a substring (an empty item list always fails). -/
def SSCondition (allintitle_count : Int) (m : RecentMap)
    (target_domains : List String) (sc : SniperConfig) : Prop :=
  sc.enabled = true ∧
  1 ≤ allintitle_count ∧ allintitle_count ≤ sc.max_competitors ∧
  0 < optCount (dget m (toLabel 1)) ∧
  optItems (dget m (toLabel 1)) ≠ [] ∧
  ∀ it ∈ optItems (dget m (toLabel 1)),
    ∃ td ∈ target_domains, containsSub td it.domain = true

/-- Claim C1's S condition: allintitle count 0, or the S-threshold window's
count 0. -/
def SCondition (allintitle_count : Int) (m : RecentMap)
    (rc : RankingConfig) : Prop :=
  allintitle_count = 0 ∨ optCount (sWindow m rc) = 0

/-- Claim C1's A condition: the A-threshold window's count is 0. -/
def ACondition (m : RecentMap) (rc : RankingConfig) : Prop :=
  optCount (aWindow m rc) = 0

/-- Claim C1's B condition: the B-threshold window's count is 0. -/
def BCondition (m : RecentMap) (rc : RankingConfig) : Prop :=
  optCount (bWindow m rc) = 0

/-- Claim C8's effective TTL: the per-rank smart-TTL table value (defaults
SS and S to 0, A to 24, B to 48, C to 168 hours) when smart TTL is enabled
and the stored rank is one of the table's keys, otherwise the base
ttl_hours (itself defaulting to 24 when unset). -/
def effectiveTTLspec (entry : CacheEntry) (cfg : CacheConfig) : Int :=
  match cfg.smart_ttl with
  | some st =>
    if st.enabled then
      let rank := strUpper (entry.rank.getD (α := String) "")
      if rank = "SS" then st.rank_ss_ttl_hours.getD 0
      else if rank = "S" then st.rank_s_ttl_hours.getD 0
      else if rank = "A" then st.rank_a_ttl_hours.getD 24
      else if rank = "B" then st.rank_b_ttl_hours.getD 48
      else if rank = "C" then st.rank_c_ttl_hours.getD 168
      else cfg.ttl_hours.getD 24
    else cfg.ttl_hours.getD 24
  | none => cfg.ttl_hours.getD 24

/-- Claim C8's staleness: missing or unparseable timestamp, or an effective
TTL of exactly 0 (always stale), or now at or past timestamp plus the
effective TTL in hours. -/
def StaleSpec (entry : CacheEntry) (cfg : CacheConfig) (now : Int) : Prop :=
  entry.timestamp = none ∨
  effectiveTTLspec entry cfg = 0 ∨
  ∃ t, entry.timestamp = some t ∧ t + effectiveTTLspec entry cfg * 3600 ≤ now

/-- A tiny concrete suggestion source used to instantiate theorems on
closed inputs: the keyword a suggests ab, every other keyword suggests
nothing. -/
def sugg0 : String → List String :=
  fun s => if s = "a" then ["ab"] else []

/-- A concrete suggestion source with a cycle: a suggests b and b suggests
a.  Used to exhibit a depth-1 suggestion that is an already-claimed keyword
and therefore never enters the result list. -/
def sugg1 : String → List String :=
  fun s => if s = "a" then ["b"] else if s = "b" then ["a"] else []

/- ---------------------------------------------------------------- -/
/- Supporting lemmas                                                 -/
/- ---------------------------------------------------------------- -/

theorem dget_dset_self {α : Type} (m : List (String × α)) (k : String) (v : α) :
    dget (dset m k v) k = some v := by
  induction m with
  | nil => simp [dset, dget]
  | cons p rest ih =>
    obtain ⟨k0, v0⟩ := p
    by_cases h : k0 = k
    · simp [dset, dget, h]
    · simp [dset, dget, h, ih]

theorem dget_dset_ne {α : Type} (m : List (String × α)) (k : String) (v : α)
    (k' : String) (h : k' ≠ k) : dget (dset m k v) k' = dget m k' := by
  have hk : ¬ k = k' := fun hk => h hk.symm
  induction m with
  | nil => simp [dset, dget, hk]
  | cons p rest ih =>
    obtain ⟨k0, v0⟩ := p
    by_cases h0 : k0 = k
    · subst h0
      simp [dset, dget, hk]
    · by_cases h1 : k0 = k'
      · simp [dset, dget, h0, h1, h]
      · simp [dset, dget, h0, h1, ih]

theorem check_domain_match_iff (w : Option WindowedResult) (tds : List String) :
    check_domain_match w tds = true ↔
      optItems w ≠ [] ∧
        ∀ it ∈ optItems w, ∃ td ∈ tds, containsSub td it.domain = true := by
  unfold check_domain_match
  by_cases h : optItems w = []
  · simp [h]
  · simp only [List.isEmpty_iff, h, if_neg h, List.all_eq_true, List.any_eq_true]
    simp [h]

theorem sniperHit_iff (a : Int) (m : RecentMap) (tds : List String)
    (sc : SniperConfig) : sniperHit a m tds sc = true ↔ SSCondition a m tds sc := by
  unfold sniperHit SSCondition
  split_ifs with h1 h2 h3
  · rw [check_domain_match_iff]
    constructor
    · rintro ⟨hne, hall⟩
      exact ⟨h1, h2.1, h2.2, h3, hne, hall⟩
    · rintro ⟨-, -, -, -, hne, hall⟩
      exact ⟨hne, hall⟩
  · simp only [false_iff]
    rintro ⟨-, -, -, hpos, -, -⟩
    exact h3 hpos
  · simp only [false_iff]
    rintro ⟨-, hle1, hle2, -, -, -⟩
    exact h2 ⟨hle1, hle2⟩
  · simp only [false_iff]
    rintro ⟨he, -, -, -, -, -⟩
    exact h1 he

theorem sniperHit_false_of_range (a : Int) (m : RecentMap) (tds : List String)
    (sc : SniperConfig) (h : ¬ (1 ≤ a ∧ a ≤ sc.max_competitors)) :
    sniperHit a m tds sc = false := by
  unfold sniperHit
  split_ifs <;> rfl

/- ---------------------------------------------------------------- -/
/- Claim theorems                                                    -/
/- ---------------------------------------------------------------- -/

/-- C1: for every keyword, determine_rank decides the rank in strict
priority order, first match wins: SS under the sniper condition (sniper
enabled, allintitle count within [1, max_competitors], the 1-day window's
count positive, every item of that window's nonempty item list matching a
target domain); otherwise S when the allintitle count is 0 or the
S-threshold window's count is 0; otherwise A when the A-threshold window's
count is 0; otherwise B when the B-threshold window's count is 0; otherwise
C. -/
theorem determine_rank_priority_cascade (kw : String) (a : Int)
    (m : RecentMap) (tds : List String) (rc : RankingConfig)
    (sc : SniperConfig) :
    (determine_rank kw a m tds rc sc = "SS" ↔ SSCondition a m tds sc) ∧
    (determine_rank kw a m tds rc sc = "S" ↔
       ¬ SSCondition a m tds sc ∧ SCondition a m rc) ∧
    (determine_rank kw a m tds rc sc = "A" ↔
       ¬ SSCondition a m tds sc ∧ ¬ SCondition a m rc ∧ ACondition m rc) ∧
    (determine_rank kw a m tds rc sc = "B" ↔
       ¬ SSCondition a m tds sc ∧ ¬ SCondition a m rc ∧ ¬ ACondition m rc ∧
         BCondition m rc) ∧
    (determine_rank kw a m tds rc sc = "C" ↔
       ¬ SSCondition a m tds sc ∧ ¬ SCondition a m rc ∧ ¬ ACondition m rc ∧
         ¬ BCondition m rc) := by
  have hss := sniperHit_iff a m tds sc
  unfold determine_rank SCondition ACondition BCondition
  split_ifs with h1 h2 h3 h4 h5 <;>
    simp_all [SCondition]

theorem dget_dset_dset {α : Type} (m : List (String × α)) (k k' : String)
    (v : α) : dget (dset (dset m k v) k' v) k = some v := by
  by_cases h : k = k'
  · subst h
    exact dget_dset_self (dset m k v) k v
  · rw [dget_dset_ne (dset m k v) k' v k h, dget_dset_self]

/-- C2 counterexample: get_recent_results does not return the -1 sentinel on
provider failure; it returns count 0, so a provider error on a windowed
query is treated exactly like a zero count. -/
theorem get_recent_results_failure_not_sentinel :
    (get_recent_results none).count = 0 ∧
      ¬ (get_recent_results none).count = -1 := by
  exact ⟨rfl, by decide⟩

/-- C2 amended: a failed windowed query yields count 0 and an empty item
list (never -1), while a failed allintitle query yields the -1 sentinel, and
that -1 participates in the zero/nonzero branching of determine_rank exactly
like any other count that is nonzero and outside the sniper range. -/
theorem windowed_failure_zero_allintitle_failure_sentinel :
    get_recent_results none = { count := 0, items := [] } ∧
    get_allintitle_count none = -1 ∧
    (∀ (kw : String) (m : RecentMap) (tds : List String) (rc : RankingConfig)
        (sc : SniperConfig) (c : Int), c ≠ 0 →
        ¬ (1 ≤ c ∧ c ≤ sc.max_competitors) →
        determine_rank kw (-1) m tds rc sc = determine_rank kw c m tds rc sc) := by
  refine ⟨rfl, rfl, ?_⟩
  intro kw m tds rc sc c hc hrange
  unfold determine_rank
  rw [sniperHit_false_of_range (-1) m tds sc (by intro hr; omega),
    sniperHit_false_of_range c m tds sc hrange]
  simp [hc]

theorem windowed_failure_sentinel_witness :
    determine_rank "kw" (-1) [] [] {} {} = determine_rank "kw" 7 [] [] {} {} :=
  windowed_failure_zero_allintitle_failure_sentinel.2.2 "kw" [] [] {} {} 7
    (by decide) (by decide)

/-- C4: when max_allintitle_results is configured positive and the
allintitle count strictly exceeds it, analyze_keyword short-circuits to rank
C with an empty recent_results map and issues no windowed query at all, the
sniper 1-day query included. -/
theorem analyze_keyword_allintitle_short_circuit (kw : String)
    (aid : Option SearchData) (wd : Nat → Option SearchData)
    (tds : List String) (rc : RankingConfig) (sc : SniperConfig) (maxA : Int)
    (h1 : 0 < maxA) (h2 : maxA < get_allintitle_count aid) :
    analyze_keyword kw aid wd tds rc sc maxA =
      ({ keyword := kw, allintitle_count := get_allintitle_count aid,
         rank := "C", recent_results := [] }, []) := by
  unfold analyze_keyword
  rw [if_pos ⟨h1, h2⟩]

theorem analyze_keyword_allintitle_short_circuit_witness :
    analyze_keyword "kw" (some { totalResults := 50, items := [] })
        (fun _ => some { totalResults := 2, items := [] }) [] {} {} 10 =
      ({ keyword := "kw", allintitle_count := 50, rank := "C",
         recent_results := [] }, []) :=
  analyze_keyword_allintitle_short_circuit "kw"
    (some { totalResults := 50, items := [] })
    (fun _ => some { totalResults := 2, items := [] }) [] {} {} 10
    (by decide) (by decide)

/-- C3: without the allintitle short-circuit, analyze_keyword queries the
B-threshold window first; a zero count there ends the windowed fetching (no
A- or S-threshold query) and records both remaining windows as count 0 with
no items; a nonzero count leads to the A-threshold query, and only a nonzero
count there leads to the S-threshold query, the S window being synthesized
as count 0 with no items otherwise.  The query trace lists exactly the
windowed fetches issued, in order, after the optional sniper 1-day fetch. -/
theorem analyze_keyword_window_short_circuit (kw : String)
    (aid : Option SearchData) (wd : Nat → Option SearchData)
    (tds : List String) (rc : RankingConfig) (sc : SniperConfig) (maxA : Int)
    (hns : ¬ (0 < maxA ∧ maxA < get_allintitle_count aid)) :
    ((get_recent_results (wd rc.rank_b_days)).count = 0 →
       (analyze_keyword kw aid wd tds rc sc maxA).2 =
         (if sc.enabled then [1] else []) ++ [rc.rank_b_days] ∧
       dget (analyze_keyword kw aid wd tds rc sc maxA).1.recent_results
         (toLabel rc.rank_a_days) = some { count := 0, items := [] } ∧
       dget (analyze_keyword kw aid wd tds rc sc maxA).1.recent_results
         (toLabel rc.rank_s_days) = some { count := 0, items := [] }) ∧
    ((get_recent_results (wd rc.rank_b_days)).count ≠ 0 →
     (get_recent_results (wd rc.rank_a_days)).count = 0 →
       (analyze_keyword kw aid wd tds rc sc maxA).2 =
         (if sc.enabled then [1] else []) ++ [rc.rank_b_days, rc.rank_a_days] ∧
       dget (analyze_keyword kw aid wd tds rc sc maxA).1.recent_results
         (toLabel rc.rank_s_days) = some { count := 0, items := [] }) ∧
    ((get_recent_results (wd rc.rank_b_days)).count ≠ 0 →
     (get_recent_results (wd rc.rank_a_days)).count ≠ 0 →
       (analyze_keyword kw aid wd tds rc sc maxA).2 =
         (if sc.enabled then [1] else []) ++
           [rc.rank_b_days, rc.rank_a_days, rc.rank_s_days] ∧
       dget (analyze_keyword kw aid wd tds rc sc maxA).1.recent_results
         (toLabel rc.rank_s_days) =
         some (get_recent_results (wd rc.rank_s_days))) := by
  unfold analyze_keyword
  rw [if_neg hns]
  refine ⟨fun hb => ?_, fun hb ha => ?_, fun hb ha => ?_⟩
  · simp only [if_pos hb]
    refine ⟨by cases sc.enabled <;> simp, ?_, ?_⟩
    · exact dget_dset_dset _ (toLabel rc.rank_a_days) (toLabel rc.rank_s_days) _
    · exact dget_dset_self _ (toLabel rc.rank_s_days) _
  · simp only [if_neg hb, if_pos ha]
    refine ⟨by cases sc.enabled <;> simp, ?_⟩
    exact dget_dset_self _ (toLabel rc.rank_s_days) _
  · simp only [if_neg hb, if_neg ha]
    refine ⟨by cases sc.enabled <;> simp, ?_⟩
    exact dget_dset_self _ (toLabel rc.rank_s_days) _

theorem analyze_keyword_window_short_circuit_witness :
    (analyze_keyword "kw" (some { totalResults := 3, items := [] })
        (fun _ => some { totalResults := 0, items := [] })
        ([] : List String) {} {} 0).2 = [7] ∧
    dget (analyze_keyword "kw" (some { totalResults := 3, items := [] })
        (fun _ => some { totalResults := 0, items := [] })
        ([] : List String) {} {} 0).1.recent_results (toLabel 30) =
      some { count := 0, items := [] } ∧
    dget (analyze_keyword "kw" (some { totalResults := 3, items := [] })
        (fun _ => some { totalResults := 0, items := [] })
        ([] : List String) {} {} 0).1.recent_results (toLabel 90) =
      some { count := 0, items := [] } :=
  (analyze_keyword_window_short_circuit "kw"
    (some { totalResults := 3, items := [] })
    (fun _ => some { totalResults := 0, items := [] }) [] {} {} 0
    (by decide)).1 (by decide)

/- Lemmas about first-occurrence deduplication. -/

theorem mem_dedupFirstAux (l : List String) : ∀ (acc : List String)
    (x : String), x ∈ dedupFirstAux acc l ↔ x ∈ l ∧ x ∉ acc := by
  induction l with
  | nil => intro acc x; simp [dedupFirstAux]
  | cons y ys ih =>
    intro acc x
    by_cases hy : y ∈ acc
    · rw [dedupFirstAux, if_pos hy, ih]
      constructor
      · rintro ⟨h1, h2⟩
        exact ⟨List.mem_cons_of_mem _ h1, h2⟩
      · rintro ⟨h1, h2⟩
        rcases List.mem_cons.mp h1 with rfl | h1
        · exact absurd hy h2
        · exact ⟨h1, h2⟩
    · rw [dedupFirstAux, if_neg hy]
      constructor
      · intro hmem
        rcases List.mem_cons.mp hmem with rfl | hmem
        · exact ⟨List.mem_cons_self _ _, hy⟩
        · rw [ih] at hmem
          obtain ⟨h1, h2⟩ := hmem
          exact ⟨List.mem_cons_of_mem _ h1,
            fun hacc => h2 (List.mem_cons_of_mem _ hacc)⟩
      · rintro ⟨h1, h2⟩
        by_cases hxy : x = y
        · subst hxy
          exact List.mem_cons_self _ _
        · rcases List.mem_cons.mp h1 with rfl | h1
          · exact absurd rfl hxy
          · refine List.mem_cons_of_mem _ ?_
            rw [ih]
            refine ⟨h1, fun hmem => ?_⟩
            rcases List.mem_cons.mp hmem with rfl | h3
            · exact hxy rfl
            · exact h2 h3

theorem nodup_dedupFirstAux (l : List String) : ∀ acc : List String,
    (dedupFirstAux acc l).Nodup := by
  induction l with
  | nil => intro acc; simp [dedupFirstAux]
  | cons y ys ih =>
    intro acc
    by_cases hy : y ∈ acc
    · rw [dedupFirstAux, if_pos hy]
      exact ih acc
    · rw [dedupFirstAux, if_neg hy]
      refine List.nodup_cons.mpr ⟨fun hmem => ?_, ih _⟩
      rw [mem_dedupFirstAux] at hmem
      exact hmem.2 (List.mem_cons_self _ _)

theorem dedupFirstAux_congr (l : List String) : ∀ acc1 acc2 : List String,
    (∀ x, x ∈ acc1 ↔ x ∈ acc2) →
    dedupFirstAux acc1 l = dedupFirstAux acc2 l := by
  induction l with
  | nil => intros; rfl
  | cons y ys ih =>
    intro acc1 acc2 h
    by_cases hy : y ∈ acc1
    · rw [dedupFirstAux, if_pos hy, dedupFirstAux, if_pos ((h y).mp hy)]
      exact ih _ _ h
    · rw [dedupFirstAux, if_neg hy, dedupFirstAux,
        if_neg (fun hm => hy ((h y).mpr hm))]
      refine congrArg _ (ih _ _ ?_)
      intro x
      simp only [List.mem_cons]
      rw [h x]

theorem dedupFirstAux_append (a : List String) : ∀ (b acc : List String),
    dedupFirstAux acc (a ++ b) =
      dedupFirstAux acc a ++ dedupFirstAux (a ++ acc) b := by
  induction a with
  | nil => intro b acc; simp [dedupFirstAux]
  | cons y ys ih =>
    intro b acc
    by_cases hy : y ∈ acc
    · rw [List.cons_append, dedupFirstAux, if_pos hy, dedupFirstAux,
        if_pos hy, ih]
      congr 1
      apply dedupFirstAux_congr
      intro x
      simp only [List.mem_append, List.mem_cons, List.cons_append]
      constructor
      · rintro (h | h)
        · exact Or.inr (Or.inl h)
        · exact Or.inr (Or.inr h)
      · rintro (rfl | h | h)
        · exact Or.inr hy
        · exact Or.inl h
        · exact Or.inr h
    · rw [List.cons_append, dedupFirstAux, if_neg hy, dedupFirstAux,
        if_neg hy, ih, List.cons_append]
      rw [List.cons_append]
      congr 2
      apply dedupFirstAux_congr
      intro x
      simp only [List.mem_append, List.mem_cons]
      constructor
      · rintro (h | rfl | h)
        · exact Or.inr (Or.inl h)
        · exact Or.inl rfl
        · exact Or.inr (Or.inr h)
      · rintro (rfl | h | h)
        · exact Or.inr (Or.inl rfl)
        · exact Or.inl h
        · exact Or.inr (Or.inr h)

theorem dedupFirstAux_comp (b : List String) : ∀ acc acc0 : List String,
    (∀ y, y ∈ acc0 → y ∈ acc) →
    dedupFirstAux acc (dedupFirstAux acc0 b) = dedupFirstAux acc b := by
  induction b with
  | nil => intros; rfl
  | cons x bs ih =>
    intro acc acc0 hsub
    by_cases h0 : x ∈ acc0
    · rw [dedupFirstAux, if_pos h0, ih _ _ hsub, dedupFirstAux,
        if_pos (hsub x h0)]
    · rw [dedupFirstAux, if_neg h0]
      by_cases h1 : x ∈ acc
      · rw [dedupFirstAux, if_pos h1, dedupFirstAux, if_pos h1]
        refine ih _ _ (fun y hy => ?_)
        rcases List.mem_cons.mp hy with rfl | hy
        · exact h1
        · exact hsub y hy
      · rw [dedupFirstAux, if_neg h1, dedupFirstAux, if_neg h1]
        refine congrArg _ (ih _ _ (fun y hy => ?_))
        rcases List.mem_cons.mp hy with rfl | hy
        · exact List.mem_cons_self _ _
        · exact List.mem_cons_of_mem _ (hsub y hy)

theorem dedupFirst_append_dedupFirst (a b : List String) :
    dedupFirst (a ++ dedupFirst b) = dedupFirst (a ++ b) := by
  unfold dedupFirst
  rw [dedupFirstAux_append, dedupFirstAux_append]
  congr 1
  exact dedupFirstAux_comp b _ _ (fun y hy => absurd hy (List.not_mem_nil y))

theorem mem_dedupFirst (l : List String) (x : String) :
    x ∈ dedupFirst l ↔ x ∈ l := by
  unfold dedupFirst
  rw [mem_dedupFirstAux]
  simp

/- Invariants of the per-level root loop. -/

theorem processRoots_inv (suggest : String → List String) (fk : List String)
    (d0 : Bool) (roots : List String) : ∀ seen : List String,
    (∀ x, x ∈ seen → x ∈ (processRoots suggest fk d0 roots seen).seen) ∧
    (processRoots suggest fk d0 roots seen).trace.Nodup ∧
    (∀ x, x ∈ (processRoots suggest fk d0 roots seen).trace →
       x ∉ seen ∧ x ∈ (processRoots suggest fk d0 roots seen).seen) ∧
    (∀ x, x ∈ (processRoots suggest fk d0 roots seen).seen →
       x ∈ seen ∨ x ∈ (processRoots suggest fk d0 roots seen).trace) := by
  induction roots with
  | nil =>
    intro seen
    simp [processRoots]
  | cons root rest ih =>
    intro seen
    by_cases hr : root ∈ seen
    · simpa only [processRoots, if_pos hr] using ih seen
    · obtain ⟨ihmono, ihnodup, ihfresh, ihrange⟩ := ih (root :: seen)
      simp only [processRoots, if_neg hr]
      refine ⟨?_, ?_, ?_, ?_⟩
      · intro x hx
        exact ihmono x (List.mem_cons_of_mem _ hx)
      · exact List.nodup_cons.mpr
          ⟨fun hmem => (ihfresh root hmem).1 (List.mem_cons_self _ _), ihnodup⟩
      · intro x hx
        rcases List.mem_cons.mp hx with rfl | hx
        · exact ⟨hr, ihmono x (List.mem_cons_self _ _)⟩
        · exact ⟨fun hseen => (ihfresh x hx).1 (List.mem_cons_of_mem _ hseen),
            (ihfresh x hx).2⟩
      · intro x hx
        rcases ihrange x hx with hx | hx
        · rcases List.mem_cons.mp hx with rfl | hx
          · exact Or.inr (List.mem_cons_self _ _)
          · exact Or.inl hx
        · exact Or.inr (List.mem_cons_of_mem _ hx)

theorem processRoots_results_not_seen (suggest : String → List String)
    (fk : List String) (d0 : Bool) (roots : List String) :
    ∀ (seen : List String) (x : String),
    x ∈ (processRoots suggest fk d0 roots seen).results → x ∉ seen := by
  induction roots with
  | nil =>
    intro seen x hx
    simp [processRoots] at hx
  | cons root rest ih =>
    intro seen x hx
    by_cases hr : root ∈ seen
    · rw [processRoots, if_pos hr] at hx
      exact ih seen x hx
    · simp only [processRoots, if_neg hr] at hx
      rcases List.mem_append.mp hx with hx | hx
      · rcases List.mem_append.mp hx with hx | hx
        · cases d0 with
          | true => simp at hx
          | false =>
            simp only [Bool.false_eq_true, if_neg] at hx
            have := of_decide_eq_true (List.mem_filter.mp hx).2
            exact fun hs => this (List.mem_cons_of_mem _ hs)
        · have := of_decide_eq_true (List.mem_filter.mp hx).2
          exact fun hs => this (List.mem_cons_of_mem _ hs)
      · exact fun hs => ih (root :: seen) x hx (List.mem_cons_of_mem _ hs)

theorem processRoots_results_from_suggest (suggest : String → List String)
    (fk : List String) (d0 : Bool) (roots : List String) :
    ∀ (seen : List String) (x : String),
    x ∈ (processRoots suggest fk d0 roots seen).results →
    ∃ r ∈ roots, x ∈ suggest r := by
  induction roots with
  | nil =>
    intro seen x hx
    simp [processRoots] at hx
  | cons root rest ih =>
    intro seen x hx
    by_cases hr : root ∈ seen
    · rw [processRoots, if_pos hr] at hx
      obtain ⟨r, hrr, hxr⟩ := ih seen x hx
      exact ⟨r, List.mem_cons_of_mem _ hrr, hxr⟩
    · simp only [processRoots, if_neg hr] at hx
      rcases List.mem_append.mp hx with hx | hx
      · rcases List.mem_append.mp hx with hx | hx
        · cases d0 with
          | true => simp at hx
          | false =>
            simp only [Bool.false_eq_true, if_neg] at hx
            exact ⟨root, List.mem_cons_self _ _, (List.mem_filter.mp hx).1⟩
        · have hm := (List.mem_filter.mp hx).1
          have hs := (List.mem_filter.mp (by
            simpa [filter_by_keywords] using hm : x ∈
              (suggest root).filter (matchesAnyFilter fk))).1
          exact ⟨root, List.mem_cons_self _ _, hs⟩
      · obtain ⟨r, hrr, hxr⟩ := ih (root :: seen) x hx
        exact ⟨r, List.mem_cons_of_mem _ hrr, hxr⟩

theorem processRoots_nexts_matches (suggest : String → List String)
    (fk : List String) (d0 : Bool) (roots : List String) :
    ∀ (seen : List String) (x : String),
    x ∈ (processRoots suggest fk d0 roots seen).nexts →
    matchesAnyFilter fk x = true := by
  induction roots with
  | nil =>
    intro seen x hx
    simp [processRoots] at hx
  | cons root rest ih =>
    intro seen x hx
    by_cases hr : root ∈ seen
    · rw [processRoots, if_pos hr] at hx
      exact ih seen x hx
    · simp only [processRoots, if_neg hr] at hx
      rcases List.mem_append.mp hx with hx | hx
      · have hm := (List.mem_filter.mp hx).1
        exact (List.mem_filter.mp (by
          simpa [filter_by_keywords] using hm : x ∈
            (suggest root).filter (matchesAnyFilter fk))).2
      · exact ih (root :: seen) x hx

theorem processRoots_nexts_from_suggest (suggest : String → List String)
    (fk : List String) (d0 : Bool) (roots : List String) :
    ∀ (seen : List String) (x : String),
    x ∈ (processRoots suggest fk d0 roots seen).nexts →
    ∃ r ∈ roots, x ∈ suggest r := by
  induction roots with
  | nil =>
    intro seen x hx
    simp [processRoots] at hx
  | cons root rest ih =>
    intro seen x hx
    by_cases hr : root ∈ seen
    · rw [processRoots, if_pos hr] at hx
      obtain ⟨r, hrr, hxr⟩ := ih seen x hx
      exact ⟨r, List.mem_cons_of_mem _ hrr, hxr⟩
    · simp only [processRoots, if_neg hr] at hx
      rcases List.mem_append.mp hx with hx | hx
      · have hm := (List.mem_filter.mp hx).1
        have hs := (List.mem_filter.mp (by
          simpa [filter_by_keywords] using hm : x ∈
            (suggest root).filter (matchesAnyFilter fk))).1
        exact ⟨root, List.mem_cons_self _ _, hs⟩
      · obtain ⟨r, hrr, hxr⟩ := ih (root :: seen) x hx
        exact ⟨r, List.mem_cons_of_mem _ hrr, hxr⟩

theorem processRoots_trace_sub (suggest : String → List String)
    (fk : List String) (d0 : Bool) (roots : List String) :
    ∀ (seen : List String) (x : String),
    x ∈ (processRoots suggest fk d0 roots seen).trace → x ∈ roots := by
  induction roots with
  | nil =>
    intro seen x hx
    simp [processRoots] at hx
  | cons root rest ih =>
    intro seen x hx
    by_cases hr : root ∈ seen
    · rw [processRoots, if_pos hr] at hx
      exact List.mem_cons_of_mem _ (ih seen x hx)
    · simp only [processRoots, if_neg hr] at hx
      rcases List.mem_cons.mp hx with rfl | hx
      · exact List.mem_cons_self _ _
      · exact List.mem_cons_of_mem _ (ih (root :: seen) x hx)

theorem processRoots_depth0_results_eq_nexts (suggest : String → List String)
    (fk : List String) (roots : List String) : ∀ seen : List String,
    (processRoots suggest fk true roots seen).results =
      (processRoots suggest fk true roots seen).nexts := by
  induction roots with
  | nil => intro seen; rfl
  | cons root rest ih =>
    intro seen
    by_cases hr : root ∈ seen
    · simp only [processRoots, if_pos hr]
      exact ih seen
    · simp only [processRoots, if_neg hr, if_true, List.nil_append]
      rw [ih (root :: seen)]

theorem processRoots_depth1_suggestions (suggest : String → List String)
    (fk : List String) (roots : List String) :
    ∀ (seen : List String) (r s : String),
    r ∈ (processRoots suggest fk false roots seen).trace → s ∈ suggest r →
    s ∈ (processRoots suggest fk false roots seen).results ∨ s ∈ seen ∨
      s ∈ (processRoots suggest fk false roots seen).trace := by
  induction roots with
  | nil =>
    intro seen r s hr
    simp [processRoots] at hr
  | cons root rest ih =>
    intro seen r s hr hs
    by_cases hroot : root ∈ seen
    · rw [processRoots, if_pos hroot] at hr ⊢
      exact ih seen r s hr hs
    · simp only [processRoots, if_neg hroot] at hr ⊢
      rcases List.mem_cons.mp hr with rfl | hr
      · by_cases hseen1 : s ∈ r :: seen
        · rcases List.mem_cons.mp hseen1 with rfl | hseen
          · exact Or.inr (Or.inr (List.mem_cons_self _ _))
          · exact Or.inr (Or.inl hseen)
        · refine Or.inl (List.mem_append.mpr (Or.inl (List.mem_append.mpr
            (Or.inl ?_))))
          simp only [Bool.false_eq_true, if_neg]
          exact List.mem_filter.mpr ⟨hs, decide_eq_true hseen1⟩
      · rcases ih (root :: seen) r s hr hs with h | h | h
        · exact Or.inl (List.mem_append.mpr (Or.inr h))
        · rcases List.mem_cons.mp h with rfl | h
          · exact Or.inr (Or.inr (List.mem_cons_self _ _))
          · exact Or.inr (Or.inl h)
        · exact Or.inr (Or.inr (List.mem_cons_of_mem _ h))

theorem processRoots_nexts_sub_step (suggest : String → List String)
    (fk : List String) (d0 : Bool) (roots seen : List String) :
    ∀ x, x ∈ (processRoots suggest fk d0 roots seen).nexts →
    x ∈ filter_by_keywords (roots.flatMap suggest) fk := by
  intro x hx
  obtain ⟨r, hr, hxr⟩ :=
    processRoots_nexts_from_suggest suggest fk d0 roots seen x hx
  have hm := processRoots_nexts_matches suggest fk d0 roots seen x hx
  unfold filter_by_keywords
  exact List.mem_filter.mpr ⟨List.mem_flatMap.mpr ⟨r, hr, hxr⟩, hm⟩

/- Invariants of the depth recursion. -/

theorem smartGo_inv (suggest : String → List String) (fk : List String) :
    ∀ (fuel : Nat) (roots : List String) (cd md : Nat) (seen : List String),
    (∀ x, x ∈ seen → x ∈ (smartGo suggest fk fuel roots cd md seen).seen) ∧
    (smartGo suggest fk fuel roots cd md seen).trace.Nodup ∧
    (∀ x, x ∈ (smartGo suggest fk fuel roots cd md seen).trace →
       x ∉ seen ∧ x ∈ (smartGo suggest fk fuel roots cd md seen).seen) := by
  intro fuel
  induction fuel with
  | zero =>
    intro roots cd md seen
    simp [smartGo]
  | succ fuel ih =>
    intro roots cd md seen
    obtain ⟨pmono, pnodup, pfresh, prange⟩ :=
      processRoots_inv suggest fk (cd == 0) roots seen
    by_cases hne : (processRoots suggest fk (cd == 0) roots seen).nexts.isEmpty
    · simp only [smartGo, if_pos hne]
      refine ⟨pmono, by simpa using pnodup, ?_⟩
      intro x hx
      rw [List.append_nil] at hx
      exact pfresh x hx
    · obtain ⟨dmono, dnodup, dfresh⟩ := ih
        (processRoots suggest fk (cd == 0) roots seen).nexts (cd + 1) md
        (processRoots suggest fk (cd == 0) roots seen).seen
      simp only [smartGo, if_neg hne]
      refine ⟨fun x hx => dmono x (pmono x hx), ?_, ?_⟩
      · rw [List.nodup_append]
        refine ⟨pnodup, dnodup, fun x hxp hxd => ?_⟩
        exact (dfresh x hxd).1 (pfresh x hxp).2
      · intro x hx
        rcases List.mem_append.mp hx with hx | hx
        · exact ⟨(pfresh x hx).1, dmono x (pfresh x hx).2⟩
        · exact ⟨fun hs => (dfresh x hx).1 (pmono x hs), (dfresh x hx).2⟩

theorem smartGo_results_not_seen (suggest : String → List String)
    (fk : List String) : ∀ (fuel : Nat) (roots : List String) (cd md : Nat)
    (seen : List String) (x : String),
    x ∈ (smartGo suggest fk fuel roots cd md seen).results → x ∉ seen := by
  intro fuel
  induction fuel with
  | zero =>
    intro roots cd md seen x hx
    simp [smartGo] at hx
  | succ fuel ih =>
    intro roots cd md seen x hx
    by_cases hne : (processRoots suggest fk (cd == 0) roots seen).nexts.isEmpty
    · simp only [smartGo, if_pos hne] at hx
      rw [mem_dedupFirst, List.append_nil] at hx
      exact processRoots_results_not_seen suggest fk (cd == 0) roots seen x hx
    · simp only [smartGo, if_neg hne] at hx
      rw [mem_dedupFirst] at hx
      rcases List.mem_append.mp hx with hx | hx
      · exact processRoots_results_not_seen suggest fk (cd == 0) roots seen x hx
      · intro hs
        exact ih _ _ _ _ x hx
          ((processRoots_inv suggest fk (cd == 0) roots seen).1 x hs)

theorem smartGo_results_raw (suggest : String → List String)
    (fk : List String) : ∀ (fuel : Nat) (roots : List String) (cd md : Nat)
    (seen : List String),
    (smartGo suggest fk fuel roots cd md seen).results =
      dedupFirst (smartRaw suggest fk fuel roots cd seen) := by
  intro fuel
  induction fuel with
  | zero => intro roots cd md seen; rfl
  | succ fuel ih =>
    intro roots cd md seen
    by_cases hne : (processRoots suggest fk (cd == 0) roots seen).nexts.isEmpty
    · simp only [smartGo, smartRaw, if_pos hne]
    · simp only [smartGo, smartRaw, if_neg hne]
      rw [ih]
      exact dedupFirst_append_dedupFirst _ _

/- Reachability bound for the depth recursion. -/

theorem potentialFrontier_step (suggest : String → List String)
    (fk : List String) (roots : List String) : ∀ j : Nat,
    potentialFrontier suggest fk
        (filter_by_keywords (roots.flatMap suggest) fk) j =
      potentialFrontier suggest fk roots (j + 1) := by
  intro j
  induction j with
  | zero => rfl
  | succ j ih =>
    simp only [potentialFrontier]
    rw [ih]
    rfl

theorem potentialFrontier_mono (suggest : String → List String)
    (fk : List String) : ∀ (j : Nat) (A B : List String),
    (∀ x, x ∈ A → x ∈ B) → ∀ x, x ∈ potentialFrontier suggest fk A j →
    x ∈ potentialFrontier suggest fk B j := by
  intro j
  induction j with
  | zero =>
    intro A B h x hx
    exact h x hx
  | succ j ih =>
    intro A B h x hx
    simp only [potentialFrontier, filter_by_keywords] at hx ⊢
    obtain ⟨h1, h2⟩ := List.mem_filter.mp hx
    refine List.mem_filter.mpr ⟨?_, h2⟩
    obtain ⟨r, hr, hxr⟩ := List.mem_flatMap.mp h1
    exact List.mem_flatMap.mpr ⟨r, ih A B h r hr, hxr⟩

theorem smartGo_reach (suggest : String → List String) (fk : List String) :
    ∀ (fuel : Nat) (roots : List String) (cd md : Nat) (seen : List String),
    (∀ x, x ∈ (smartGo suggest fk fuel roots cd md seen).results →
       ∃ j, j < fuel ∧
         x ∈ (potentialFrontier suggest fk roots j).flatMap suggest) ∧
    (∀ x, x ∈ (smartGo suggest fk fuel roots cd md seen).trace →
       ∃ j, j < fuel ∧ x ∈ potentialFrontier suggest fk roots j) := by
  intro fuel
  induction fuel with
  | zero =>
    intro roots cd md seen
    simp [smartGo]
  | succ fuel ih =>
    intro roots cd md seen
    constructor
    · intro x hx
      by_cases hne : (processRoots suggest fk (cd == 0) roots seen).nexts.isEmpty
      · simp only [smartGo, if_pos hne] at hx
        rw [mem_dedupFirst, List.append_nil] at hx
        obtain ⟨r, hr, hxr⟩ :=
          processRoots_results_from_suggest suggest fk (cd == 0) roots seen x hx
        exact ⟨0, Nat.succ_pos _, List.mem_flatMap.mpr ⟨r, hr, hxr⟩⟩
      · simp only [smartGo, if_neg hne] at hx
        rw [mem_dedupFirst] at hx
        rcases List.mem_append.mp hx with hx | hx
        · obtain ⟨r, hr, hxr⟩ :=
            processRoots_results_from_suggest suggest fk (cd == 0) roots seen x hx
          exact ⟨0, Nat.succ_pos _, List.mem_flatMap.mpr ⟨r, hr, hxr⟩⟩
        · obtain ⟨j, hj, hxj⟩ := (ih _ (cd + 1) md _).1 x hx
          refine ⟨j + 1, Nat.succ_lt_succ hj, ?_⟩
          obtain ⟨r, hr, hxr⟩ := List.mem_flatMap.mp hxj
          refine List.mem_flatMap.mpr ⟨r, ?_, hxr⟩
          have hr2 := potentialFrontier_mono suggest fk j _ _
            (processRoots_nexts_sub_step suggest fk (cd == 0) roots seen) r hr
          rw [potentialFrontier_step] at hr2
          exact hr2
    · intro x hx
      by_cases hne : (processRoots suggest fk (cd == 0) roots seen).nexts.isEmpty
      · simp only [smartGo, if_pos hne] at hx
        rw [List.append_nil] at hx
        exact ⟨0, Nat.succ_pos _,
          processRoots_trace_sub suggest fk (cd == 0) roots seen x hx⟩
      · simp only [smartGo, if_neg hne] at hx
        rcases List.mem_append.mp hx with hx | hx
        · exact ⟨0, Nat.succ_pos _,
            processRoots_trace_sub suggest fk (cd == 0) roots seen x hx⟩
        · obtain ⟨j, hj, hxj⟩ := (ih _ (cd + 1) md _).2 x hx
          refine ⟨j + 1, Nat.succ_lt_succ hj, ?_⟩
          have hr2 := potentialFrontier_mono suggest fk j _ _
            (processRoots_nexts_sub_step suggest fk (cd == 0) roots seen) x hxj
          rw [potentialFrontier_step] at hr2
          exact hr2

theorem processRoots_head_not_results (suggest : String → List String)
    (fk : List String) (d0 : Bool) (r : String) (rest seen : List String)
    (hr : r ∉ seen) :
    r ∉ (processRoots suggest fk d0 (r :: rest) seen).results := by
  intro hmem
  simp only [processRoots, if_neg hr] at hmem
  rcases List.mem_append.mp hmem with h | h
  · rcases List.mem_append.mp h with h | h
    · cases d0 with
      | true => simp at h
      | false =>
        simp only [Bool.false_eq_true, if_neg] at h
        exact of_decide_eq_true (List.mem_filter.mp h).2 (List.mem_cons_self _ _)
    · exact of_decide_eq_true (List.mem_filter.mp h).2 (List.mem_cons_self _ _)
  · exact processRoots_results_not_seen suggest fk d0 rest (r :: seen) r h
      (List.mem_cons_self _ _)

theorem processRoots_head_in_seen (suggest : String → List String)
    (fk : List String) (d0 : Bool) (r : String) (rest seen : List String)
    (hr : r ∉ seen) :
    r ∈ (processRoots suggest fk d0 (r :: rest) seen).seen := by
  have htr : r ∈ (processRoots suggest fk d0 (r :: rest) seen).trace := by
    simp only [processRoots, if_neg hr]
    exact List.mem_cons_self _ _
  exact ((processRoots_inv suggest fk d0 (r :: rest) seen).2.2.1 r htr).2

/-- C5: across the whole traversal each keyword is fetched at most once
(the fetch trace has no duplicate), the returned list contains each keyword
at most once, and the returned list is exactly the first-occurrence
deduplication of the raw discovery stream, so it is ordered by first
discovery. -/
theorem smart_recursive_search_dedup (suggest : String → List String)
    (fk roots : List String) (cd md : Nat) (seen : List String) :
    (smart_recursive_search suggest fk roots cd md seen).results.Nodup ∧
    (smart_recursive_search suggest fk roots cd md seen).trace.Nodup ∧
    (smart_recursive_search suggest fk roots cd md seen).results =
      dedupFirst (smartRaw suggest fk (md - cd) roots cd seen) := by
  unfold smart_recursive_search
  refine ⟨?_, (smartGo_inv suggest fk (md - cd) roots cd md seen).2.1,
    smartGo_results_raw suggest fk (md - cd) roots cd md seen⟩
  rw [smartGo_results_raw]
  exact nodup_dedupFirstAux _ _

/-- C6 counterexample: at depth 1 not every fetched suggestion enters the
result set.  With root a, filter b, a suggesting b and b suggesting a, the
keyword b is fetched at depth 1 (it is in the fetch trace and is not the
root), its suggestion a is returned by the provider, yet a is absent from
the result list, because a is already in the seen set. -/
theorem depth1_suggestion_missing_from_results :
    "b" ∈ (smart_recursive_search sugg1 ["b"] ["a"] 0 2 []).trace ∧
    "a" ∈ sugg1 "b" ∧
    "a" ∉ (smart_recursive_search sugg1 ["b"] ["a"] 0 2 []).results := by
  decide

/-- C6 amended: at depth 0 the level loop of smart_recursive_search admits into
results exactly what it admits into the next frontier, and everything it
admits matches some filter keyword; at any depth the next frontier consists
of filter matches only; at depth at least 1 every suggestion of a fetched
root enters the results unless it is an already-known keyword (in the seen
set at entry or itself fetched at this level). -/
theorem processRoots_depth_filtering (suggest : String → List String)
    (fk : List String) :
    (∀ roots seen, (processRoots suggest fk true roots seen).results =
       (processRoots suggest fk true roots seen).nexts) ∧
    (∀ roots seen x, x ∈ (processRoots suggest fk true roots seen).results →
       matchesAnyFilter fk x = true) ∧
    (∀ (d0 : Bool) (roots seen : List String) (x : String),
       x ∈ (processRoots suggest fk d0 roots seen).nexts →
       matchesAnyFilter fk x = true) ∧
    (∀ (roots seen : List String) (r s : String),
       r ∈ (processRoots suggest fk false roots seen).trace → s ∈ suggest r →
       s ∈ (processRoots suggest fk false roots seen).results ∨ s ∈ seen ∨
         s ∈ (processRoots suggest fk false roots seen).trace) := by
  refine ⟨processRoots_depth0_results_eq_nexts suggest fk, ?_,
    fun d0 roots seen x => processRoots_nexts_matches suggest fk d0 roots seen x,
    fun roots seen r s => processRoots_depth1_suggestions suggest fk roots seen r s⟩
  intro roots seen x hx
  rw [processRoots_depth0_results_eq_nexts] at hx
  exact processRoots_nexts_matches suggest fk true roots seen x hx

theorem processRoots_depth_filtering_witness :
    matchesAnyFilter ["ab"] "ab" = true ∧
    ("ab" ∈ (processRoots sugg0 ["ab"] false ["a"] []).results ∨
      "ab" ∈ ([] : List String) ∨
      "ab" ∈ (processRoots sugg0 ["ab"] false ["a"] []).trace) :=
  ⟨(processRoots_depth_filtering sugg0 ["ab"]).2.1 ["a"] [] "ab" (by decide),
   (processRoots_depth_filtering sugg0 ["ab"]).2.2.2 ["a"] [] "a" "ab"
     (by decide) (by decide)⟩

/-- C7: a call at current_depth at or beyond max_depth returns at once with
no fetch and no result; every result of a full traversal with max_depth N is
a suggestion of a keyword in a potential frontier of level below N, so
nothing discoverable only at depth N + 1 can appear; and every fetched
keyword lies in a potential frontier of level below N, so no fetch occurs
beyond depth N. -/
theorem smart_recursive_search_depth_bound (suggest : String → List String)
    (fk : List String) :
    (∀ (roots : List String) (cd md : Nat) (seen : List String), md ≤ cd →
       smart_recursive_search suggest fk roots cd md seen =
         { results := [], seen := seen, trace := [] }) ∧
    (∀ (roots : List String) (md : Nat) (seen : List String) (x : String),
       x ∈ (smart_recursive_search suggest fk roots 0 md seen).results →
       ∃ j, j < md ∧
         x ∈ (potentialFrontier suggest fk roots j).flatMap suggest) ∧
    (∀ (roots : List String) (md : Nat) (seen : List String) (x : String),
       x ∈ (smart_recursive_search suggest fk roots 0 md seen).trace →
       ∃ j, j < md ∧ x ∈ potentialFrontier suggest fk roots j) := by
  refine ⟨?_, ?_, ?_⟩
  · intro roots cd md seen h
    unfold smart_recursive_search
    rw [Nat.sub_eq_zero_of_le h]
    rfl
  · intro roots md seen x hx
    have := (smartGo_reach suggest fk (md - 0) roots 0 md seen).1 x hx
    simpa using this
  · intro roots md seen x hx
    have := (smartGo_reach suggest fk (md - 0) roots 0 md seen).2 x hx
    simpa using this

theorem smart_recursive_search_depth_bound_witness :
    smart_recursive_search sugg0 ["ab"] ["a"] 3 2 ["z"] =
      { results := [], seen := ["z"], trace := [] } ∧
    (∃ j, j < 2 ∧ "ab" ∈ (potentialFrontier sugg0 ["ab"] ["a"] j).flatMap sugg0) ∧
    (∃ j, j < 2 ∧ "ab" ∈ potentialFrontier sugg0 ["ab"] ["a"] j) :=
  ⟨(smart_recursive_search_depth_bound sugg0 ["ab"]).1 ["a"] 3 2 ["z"]
      (by decide),
   (smart_recursive_search_depth_bound sugg0 ["ab"]).2.1 ["a"] 2 [] "ab"
      (by decide),
   (smart_recursive_search_depth_bound sugg0 ["ab"]).2.2 ["a"] 2 [] "ab"
      (by decide)⟩

/-- C9 counterexample: a keyword used as a fetch root can appear in the
returned list.  With root a, filter ab and suggestions a to ab, the keyword
ab is returned and is also fetched as a root of the next depth. -/
theorem returned_keyword_also_fetch_root :
    "ab" ∈ (smart_recursive_search sugg0 ["ab"] ["a"] 0 2 []).results ∧
    "ab" ∈ (smart_recursive_search sugg0 ["ab"] ["a"] 0 2 []).trace := by
  decide

/-- C9 amended: the result list excludes every keyword already in the seen
set when it is suggested — in particular everything in the seen set at call
entry, and the first root keyword, which is claimed before any suggestion is
appended; but a keyword may appear in the result list and later be claimed
as a fetch root. -/
theorem results_exclude_already_seen (suggest : String → List String)
    (fk : List String) :
    (∀ (fuel : Nat) (roots : List String) (cd md : Nat)
        (seen : List String) (x : String),
       x ∈ (smartGo suggest fk fuel roots cd md seen).results → x ∉ seen) ∧
    (∀ (r : String) (rest : List String) (cd md : Nat) (seen : List String),
       r ∉ seen →
       r ∉ (smart_recursive_search suggest fk (r :: rest) cd md seen).results) := by
  refine ⟨fun fuel roots cd md seen x =>
    smartGo_results_not_seen suggest fk fuel roots cd md seen x, ?_⟩
  intro r rest cd md seen hr hmem
  unfold smart_recursive_search at hmem
  cases hfuel : md - cd with
  | zero =>
    rw [hfuel] at hmem
    simp [smartGo] at hmem
  | succ fuel =>
    rw [hfuel] at hmem
    by_cases hne :
      (processRoots suggest fk (cd == 0) (r :: rest) seen).nexts.isEmpty
    · simp only [smartGo, if_pos hne] at hmem
      rw [mem_dedupFirst, List.append_nil] at hmem
      exact processRoots_head_not_results suggest fk (cd == 0) r rest seen hr hmem
    · simp only [smartGo, if_neg hne] at hmem
      rw [mem_dedupFirst] at hmem
      rcases List.mem_append.mp hmem with hm | hm
      · exact processRoots_head_not_results suggest fk (cd == 0) r rest seen hr hm
      · exact smartGo_results_not_seen suggest fk fuel _ (cd + 1) md _ r hm
          (processRoots_head_in_seen suggest fk (cd == 0) r rest seen hr)

theorem results_exclude_already_seen_witness :
    "a" ∉ (smart_recursive_search sugg0 ["ab"] ["a"] 0 2 []).results ∧
    "ab" ∉ ([] : List String) :=
  ⟨(results_exclude_already_seen sugg0 ["ab"]).2 "a" [] 0 2 [] (by decide),
   (results_exclude_already_seen sugg0 ["ab"]).1 2 ["a"] 0 2 [] "ab"
     (by decide)⟩

theorem is_cache_valid_false_iff (e : CacheEntry) (cfg : CacheConfig)
    (now : Int) :
    is_cache_valid e (cfg.ttl_hours.getD 24) cfg.smart_ttl now = false ↔
      StaleSpec e cfg now := by
  have heq : rank_effective_ttl e (cfg.ttl_hours.getD 24) cfg.smart_ttl =
      effectiveTTLspec e cfg := rfl
  unfold is_cache_valid StaleSpec
  cases ht : e.timestamp with
  | none => simp [ht]
  | some t =>
    simp only [ht, heq]
    by_cases h0 : effectiveTTLspec e cfg = 0
    · simp [h0]
    · rw [if_neg h0]
      simp only [decide_eq_false_iff_not, not_lt]
      constructor
      · intro hle
        exact Or.inr (Or.inr ⟨t, rfl, hle⟩)
      · rintro (hnone | hzero | ⟨t', ht', hle⟩)
        · cases hnone
        · exact absurd hzero h0
        · injection ht' with ht2
          subst ht2
          exact hle

/-- C8: get_cached_result returns none exactly when the keyword is absent,
when caching is disabled, or when the stored entry is stale, staleness being
a missing or unparseable timestamp, an effective TTL of exactly 0 (the
per-rank smart-TTL table value with defaults SS and S to 0, A to 24, B to
48, C to 168 when smart TTL is enabled, else the base ttl_hours), or now at
or past timestamp plus the effective TTL. -/
theorem get_cached_result_none_iff (keyword : String)
    (cache_data : List (String × CacheEntry)) (cfg : CacheConfig)
    (now : Int) :
    get_cached_result keyword cache_data cfg now = none ↔
      dget cache_data keyword = none ∨ cfg.enabled = false ∨
        ∃ e, dget cache_data keyword = some e ∧ StaleSpec e cfg now := by
  cases h : dget cache_data keyword with
  | none => simp [get_cached_result, h]
  | some e =>
    have hiff := is_cache_valid_false_iff e cfg now
    simp only [get_cached_result, h]
    cases hen : cfg.enabled with
    | false => simp [hen]
    | true =>
      simp only [hen, Bool.not_true, Bool.false_eq_true, if_false]
      by_cases hv :
          is_cache_valid e (cfg.ttl_hours.getD 24) cfg.smart_ttl now = true
      · rw [if_pos hv]
        constructor
        · intro hc
          exact absurd hc (Option.some_ne_none e)
        · rintro (hc | hc | ⟨e', he', hst⟩)
          · cases hc
          · cases hc
          · injection he' with he2
            subst he2
            have hfalse := hiff.mpr hst
            rw [hfalse] at hv
            cases hv
      · have hvf :
            is_cache_valid e (cfg.ttl_hours.getD 24) cfg.smart_ttl now =
              false := by
          cases hvv :
              is_cache_valid e (cfg.ttl_hours.getD 24) cfg.smart_ttl now with
          | false => rfl
          | true => exact absurd hvv hv
        rw [if_neg hv]
        exact ⟨fun _ => Or.inr (Or.inr ⟨e, rfl, hiff.mp hvf⟩), fun _ => rfl⟩

theorem get_cached_result_none_iff_witness :
    get_cached_result ("kw")
        [("kw", { timestamp := some 0, rank := some "S" })]
        { enabled := true, ttl_hours := some 24,
          smart_ttl := some { enabled := true, rank_s_ttl_hours := some 0 } }
        100 = none :=
  (get_cached_result_none_iff ("kw")
      [("kw", { timestamp := some 0, rank := some "S" })]
      { enabled := true, ttl_hours := some 24,
        smart_ttl := some { enabled := true, rank_s_ttl_hours := some 0 } }
      100).mpr
    (Or.inr (Or.inr ⟨{ timestamp := some 0, rank := some "S" }, by decide,
      Or.inr (Or.inl (by decide))⟩))

/-- C10: update_cache sets the timestamp key of the result dict in place and
binds the keyword, in the cache dict, to that very object (the cached entry
and the returned record alias one heap cell); no other key of the result
dict, no other heap object, and no other cache entry changes. -/
theorem update_cache_inserts_alias {α : Type} (keyword : String)
    (result_ref : Nat) (cache_data : List (String × Nat)) (heap : Heap α)
    (ts : α) :
    (dget ((update_cache keyword result_ref cache_data heap ts).2.store
        result_ref) ("timestamp") = some ts) ∧
    (∀ k, k ≠ "timestamp" →
       dget ((update_cache keyword result_ref cache_data heap ts).2.store
         result_ref) k = dget (heap.store result_ref) k) ∧
    (dget (update_cache keyword result_ref cache_data heap ts).1 keyword =
       some result_ref) ∧
    (∀ a, a ≠ result_ref →
       (update_cache keyword result_ref cache_data heap ts).2.store a =
         heap.store a) ∧
    (∀ kw, kw ≠ keyword →
       dget (update_cache keyword result_ref cache_data heap ts).1 kw =
         dget cache_data kw) := by
  refine ⟨?_, ?_, ?_, ?_, ?_⟩
  · simp only [update_cache]
    rw [if_pos trivial]
    exact dget_dset_self _ _ _
  · intro k hk
    simp only [update_cache]
    rw [if_pos trivial]
    exact dget_dset_ne _ _ _ _ hk
  · exact dget_dset_self _ _ _
  · intro a ha
    simp only [update_cache]
    rw [if_neg ha]
  · intro kw hk
    exact dget_dset_ne _ _ _ _ hk

theorem update_cache_inserts_alias_witness :
    dget ((update_cache ("kw") 0 [] ({ store := fun _ => [] } : Heap String)
        ("t0")).2.store 0) ("timestamp") = some ("t0") ∧
    (update_cache ("kw") 0 [] ({ store := fun _ => [] } : Heap String)
        ("t0")).2.store 1 = ([] : List (String × String)) ∧
    dget (update_cache ("kw") 0 [] ({ store := fun _ => [] } : Heap String)
        ("t0")).1 ("other") = none :=
  ⟨(update_cache_inserts_alias ("kw") 0 []
      ({ store := fun _ => [] } : Heap String) ("t0")).1,
   ((update_cache_inserts_alias ("kw") 0 []
      ({ store := fun _ => [] } : Heap String) ("t0")).2.2.2.1 1
      (by decide)).trans rfl,
   ((update_cache_inserts_alias ("kw") 0 []
      ({ store := fun _ => [] } : Heap String) ("t0")).2.2.2.2 ("other")
      (by decide)).trans rfl⟩

end DemandMiner
